import Mathlib

/-!
Shallow embedding of the `dns-server-ts` forwarding DNS resolver
(`app/server.ts`, `request-manager.ts`, `dns-utils.ts`, `dns-forwarder.ts`,
`config.ts`, `types.ts`) and proofs about the specified properties.

JavaScript `Map` objects are modelled as association lists with
insertion-order semantics: `set` replaces in place or appends, `delete`
removes the (unique) entry with the given key, iteration follows list order.
Node `Buffer`s are modelled as lists of byte values (`Nat`), with the
Node accessors `readUInt16BE` / `writeUInt16BE` returning `none` where Node
throws (`ERR_OUT_OF_RANGE` / `ERR_BUFFER_OUT_OF_BOUNDS`).
-/

namespace DnsServerTs

/-! ### JavaScript `Map` model -/

def mapGet {α β : Type} [DecidableEq α] (k : α) : List (α × β) → Option β
  | [] => none
  | p :: rest => if p.1 = k then some p.2 else mapGet k rest

def mapSet {α β : Type} [DecidableEq α] (k : α) (v : β) : List (α × β) → List (α × β)
  | [] => [(k, v)]
  | p :: rest => if p.1 = k then (k, v) :: rest else p :: mapSet k v rest

def mapDelete {α β : Type} [DecidableEq α] (k : α) (m : List (α × β)) : List (α × β) :=
  m.filter (fun p => decide (p.1 ≠ k))

def mapHas {α β : Type} [DecidableEq α] (k : α) (m : List (α × β)) : Bool :=
  (mapGet k m).isSome

def mapKeys {α β : Type} (m : List (α × β)) : List α :=
  m.map Prod.fst

theorem mapKeys_cons {α β : Type} (p : α × β) (rest : List (α × β)) :
    mapKeys (p :: rest) = p.1 :: mapKeys rest := rfl

theorem mapGet_mapSet_self {α β : Type} [DecidableEq α] (k : α) (v : β) (m : List (α × β)) :
    mapGet k (mapSet k v m) = some v := by
  induction m with
  | nil => simp [mapGet, mapSet]
  | cons p rest ih =>
    by_cases h : p.1 = k
    · simp [mapGet, mapSet, h]
    · simp [mapGet, mapSet, h, ih]

theorem mapGet_mapSet_ne {α β : Type} [DecidableEq α] {k k' : α} (v : β) (m : List (α × β))
    (h : k' ≠ k) : mapGet k' (mapSet k v m) = mapGet k' m := by
  have hkk : ¬ k = k' := fun hh => h hh.symm
  induction m with
  | nil => simp [mapGet, mapSet, hkk]
  | cons p rest ih =>
    by_cases hp : p.1 = k
    · have hp' : ¬ p.1 = k' := fun hh => h ((hp.symm.trans hh).symm)
      simp only [mapSet, if_pos hp, mapGet, if_neg hkk, if_neg hp']
    · simp only [mapSet, if_neg hp, mapGet]
      by_cases hp' : p.1 = k'
      · simp [hp']
      · simp [hp', ih]

theorem mapGet_eq_none_of_not_mem_keys {α β : Type} [DecidableEq α] {k : α}
    {m : List (α × β)} (h : k ∉ mapKeys m) : mapGet k m = none := by
  induction m with
  | nil => rfl
  | cons p rest ih =>
    rw [mapKeys_cons] at h
    have h1 : ¬ p.1 = k := fun hh => h (List.mem_cons.mpr (Or.inl hh.symm))
    have h2 : k ∉ mapKeys rest := fun hh => h (List.mem_cons.mpr (Or.inr hh))
    simp only [mapGet, if_neg h1]
    exact ih h2

theorem mem_keys_of_mapGet_isSome {α β : Type} [DecidableEq α] {k : α}
    {m : List (α × β)} (h : (mapGet k m).isSome) : k ∈ mapKeys m := by
  by_contra hmem
  rw [mapGet_eq_none_of_not_mem_keys hmem] at h
  simp at h

theorem mem_of_mapGet_eq_some {α β : Type} [DecidableEq α] {k : α} {v : β}
    {m : List (α × β)} (h : mapGet k m = some v) : (k, v) ∈ m := by
  induction m with
  | nil => simp [mapGet] at h
  | cons p rest ih =>
    obtain ⟨a, b⟩ := p
    by_cases hp : a = k
    · simp only [mapGet, if_pos hp] at h
      rw [Option.some.injEq] at h
      subst hp; subst h
      exact List.mem_cons_self _ _
    · simp only [mapGet, if_neg hp] at h
      exact List.mem_cons_of_mem _ (ih h)

theorem mapGet_eq_some_of_mem {α β : Type} [DecidableEq α] {k : α} {v : β}
    {m : List (α × β)} (hnd : (mapKeys m).Nodup) (h : (k, v) ∈ m) :
    mapGet k m = some v := by
  induction m with
  | nil => simp at h
  | cons p rest ih =>
    obtain ⟨a, b⟩ := p
    rw [mapKeys_cons] at hnd
    have hnd' := List.nodup_cons.mp hnd
    rcases List.mem_cons.mp h with h | h
    · rw [Prod.mk.injEq] at h
      obtain ⟨h1, h2⟩ := h
      subst h1; subst h2
      simp [mapGet]
    · have hk : ¬ (a = k) := by
        intro he
        apply hnd'.1
        rw [he]
        exact List.mem_map.mpr ⟨(k, v), h, rfl⟩
      simp only [mapGet, if_neg hk]
      exact ih hnd'.2 h

theorem mapKeys_mapSet {α β : Type} [DecidableEq α] (k : α) (v : β) (m : List (α × β)) :
    mapKeys (mapSet k v m) =
      if k ∈ mapKeys m then mapKeys m else mapKeys m ++ [k] := by
  induction m with
  | nil => simp [mapSet, mapKeys]
  | cons p rest ih =>
    by_cases hp : p.1 = k
    · have hset : mapSet k v (p :: rest) = (k, v) :: rest := by
        simp [mapSet, hp]
      have hmem : k ∈ mapKeys (p :: rest) := by
        rw [mapKeys_cons]
        exact List.mem_cons.mpr (Or.inl hp.symm)
      rw [hset, if_pos hmem, mapKeys_cons, mapKeys_cons, hp]
    · have hset : mapSet k v (p :: rest) = p :: mapSet k v rest := by
        simp [mapSet, hp]
      rw [hset, mapKeys_cons, ih, mapKeys_cons]
      by_cases hk : k ∈ mapKeys rest
      · rw [if_pos hk, if_pos (List.mem_cons.mpr (Or.inr hk))]
      · rw [if_neg hk, if_neg (fun hmem => by
          rcases List.mem_cons.mp hmem with h | h
          · exact hp h.symm
          · exact hk h)]
        rfl

theorem mapKeys_mapSet_nodup {α β : Type} [DecidableEq α] (k : α) (v : β)
    {m : List (α × β)} (h : (mapKeys m).Nodup) : (mapKeys (mapSet k v m)).Nodup := by
  rw [mapKeys_mapSet]
  by_cases hk : k ∈ mapKeys m
  · simpa [hk]
  · simp [hk, List.nodup_append, h]

theorem mapKeys_mapDelete_sublist {α β : Type} [DecidableEq α] (k : α) (m : List (α × β)) :
    (mapKeys (mapDelete k m)).Sublist (mapKeys m) :=
  List.Sublist.map Prod.fst (List.filter_sublist m)

theorem mapKeys_mapDelete_nodup {α β : Type} [DecidableEq α] (k : α)
    {m : List (α × β)} (h : (mapKeys m).Nodup) : (mapKeys (mapDelete k m)).Nodup :=
  (mapKeys_mapDelete_sublist k m).nodup h

theorem mapGet_mapDelete_self {α β : Type} [DecidableEq α] (k : α) (m : List (α × β)) :
    mapGet k (mapDelete k m) = none := by
  apply mapGet_eq_none_of_not_mem_keys
  intro hmem
  rcases List.mem_map.mp hmem with ⟨p, hp, hpk⟩
  rcases List.mem_filter.mp hp with ⟨_, hdec⟩
  exact (of_decide_eq_true hdec) hpk

theorem mapGet_mapDelete_ne {α β : Type} [DecidableEq α] {k k' : α} (m : List (α × β))
    (h : k' ≠ k) : mapGet k' (mapDelete k m) = mapGet k' m := by
  induction m with
  | nil => rfl
  | cons p rest ih =>
    by_cases hp : p.1 = k
    · have hp' : ¬ p.1 = k' := fun hh => h ((hp.symm.trans hh).symm)
      have hdrop : mapDelete k (p :: rest) = mapDelete k rest := by
        simp [mapDelete, List.filter_cons, hp]
      rw [hdrop, ih]
      simp [mapGet, hp']
    · have hkeep : mapDelete k (p :: rest) = p :: mapDelete k rest := by
        simp [mapDelete, List.filter_cons, hp]
      rw [hkeep]
      by_cases hp' : p.1 = k'
      · simp [mapGet, hp']
      · simp [mapGet, hp', ih]

theorem mapDelete_of_mapGet_none {α β : Type} [DecidableEq α] {k : α} {m : List (α × β)}
    (h : mapGet k m = none) : mapDelete k m = m := by
  induction m with
  | nil => rfl
  | cons p rest ih =>
    by_cases hp : p.1 = k
    · simp [mapGet, hp] at h
    · simp only [mapGet, if_neg hp] at h
      have hkeep : mapDelete k (p :: rest) = p :: mapDelete k rest := by
        simp [mapDelete, List.filter_cons, hp]
      rw [hkeep, ih h]

theorem mapGet_filter {α β : Type} [DecidableEq α] (k : α) (Q : α × β → Bool)
    {m : List (α × β)} (hnd : (mapKeys m).Nodup) :
    mapGet k (m.filter Q) =
      (mapGet k m).bind (fun v => if Q (k, v) then some v else none) := by
  induction m with
  | nil => rfl
  | cons p rest ih =>
    obtain ⟨a, b⟩ := p
    rw [mapKeys_cons] at hnd
    have hnd' := List.nodup_cons.mp hnd
    by_cases hp : a = k
    · subst hp
      have hrest : mapGet a (rest.filter Q) = none := by
        apply mapGet_eq_none_of_not_mem_keys
        intro hmem
        exact hnd'.1 ((List.Sublist.map Prod.fst (List.filter_sublist rest)).subset hmem)
      by_cases hQ : Q (a, b)
      · simp [mapGet, hQ, List.filter_cons]
      · simp [mapGet, hQ, List.filter_cons, hrest]
    · by_cases hQ : Q (a, b) <;>
        simp [mapGet, hQ, List.filter_cons, hp, ih hnd'.2]

/-! ### Node `Buffer` model -/

/-- A Node `Buffer`: a list of byte values. -/
abbrev Buf := List Nat

/-- `buf.readUInt16BE(0)`: big-endian 16-bit word at offset 0.
Node throws `ERR_OUT_OF_RANGE` when the buffer is shorter than 2 octets;
that is modelled as `none`. -/
def readUInt16BE : Buf → Option Nat
  | b0 :: b1 :: _ => some (b0 * 256 + b1)
  | _ => none

/-- `buf.writeUInt16BE(v, 0)`: overwrite the first two octets with the
big-endian encoding of `v`, in place.  Node throws when `v` is outside
`0 .. 0xFFFF` or the buffer is shorter than 2 octets; modelled as `none`. -/
def writeUInt16BE (v : Nat) (b : Buf) : Option Buf :=
  if v < 65536 ∧ 2 ≤ b.length then
    some ((b.set 0 (v / 256)).set 1 (v % 256))
  else none

theorem writeUInt16BE_cons (v b0 b1 : Nat) (rest : List Nat) (hv : v < 65536) :
    writeUInt16BE v (b0 :: b1 :: rest) = some (v / 256 :: v % 256 :: rest) := by
  simp [writeUInt16BE, hv]

theorem readUInt16BE_writeUInt16BE {v : Nat} {b b' : Buf}
    (h : writeUInt16BE v b = some b') : readUInt16BE b' = some v := by
  match b with
  | [] => simp [writeUInt16BE] at h
  | [_] => simp [writeUInt16BE] at h
  | b0 :: b1 :: rest =>
    have hv : v < 65536 := by
      by_contra hv
      simp [writeUInt16BE, hv] at h
    rw [writeUInt16BE_cons _ _ _ _ hv] at h
    rw [Option.some.injEq] at h
    subst h
    simp [readUInt16BE]
    omega

/-! ### `dns-utils.ts` -/

/-- `buffer.toString('ascii', start, stop)`: Node clamps the range to the
buffer and masks each byte to 7 bits. -/
def bufToStringAscii (b : Buf) (start stop : Nat) : String :=
  String.mk (((b.drop start).take (stop - start)).map (fun c => Char.ofNat (c % 128)))

/-- The `while` loop of `parseDomainFromQuery`.  A byte read at an index not
guarded to be inside the buffer would return `none` ("crash"); the theorem
`parseDomainFromQuery_total` shows this never happens. -/
def parseDomainLoop (b : Buf) (offset : Nat) (domain : String) : Option String :=
  if offset < b.length then
    match b.get? offset with
    | none => none
    | some labelLength =>
      if labelLength = 0 then some domain
      else
        parseDomainLoop b (offset + 1 + labelLength)
          ((if domain.length > 0 then domain ++ "." else domain) ++
            bufToStringAscii b (offset + 1) (offset + 1 + labelLength))
  else some domain
termination_by b.length - offset
decreasing_by
  simp_wf
  omega

/-- `parseDomainFromQuery`: read length-prefixed labels starting at octet 12,
join with `.`, lower-case. -/
def parseDomainFromQuery (queryBuffer : Buf) : Option String :=
  (parseDomainLoop queryBuffer 12 "").map String.toLower

theorem parseDomainLoop_isSome (b : Buf) (offset : Nat) (domain : String) :
    (parseDomainLoop b offset domain).isSome := by
  rw [parseDomainLoop]
  split
  · rename_i hoff
    rcases hget : b.get? offset with _ | labelLength
    · rw [List.get?_eq_none] at hget
      omega
    · simp only [hget]
      split
      · simp
      · exact parseDomainLoop_isSome b (offset + 1 + labelLength) _
  · simp
termination_by b.length - offset
decreasing_by
  simp_wf
  omega

/-- Total variant used by the callers (`server.ts` / `dns-forwarder.ts`),
justified by `parseDomainLoop_isSome`. -/
def parseDomain (queryBuffer : Buf) : String :=
  (parseDomainFromQuery queryBuffer).getD ""

/-! ### `types.ts` and `config.ts` -/

structure DnsRequest where
  clientIP : String
  clientPort : Nat
  timestamp : Nat
  queryId : Nat
  upstreamQueryId : Nat
  domain : String
  requestHash : String
deriving DecidableEq, Repr

structure UpstreamServer where
  ip : String
  port : Nat
  name : String
deriving DecidableEq, Repr

def DNS_SERVERS : List UpstreamServer :=
  [⟨"8.8.8.8", 53, "Google Primary"⟩,
   ⟨"1.1.1.1", 53, "Cloudflare Primary"⟩,
   ⟨"9.9.9.9", 53, "Quad9 Primary"⟩]

/-! ### `request-manager.ts` -/

structure RequestManager where
  pendingRequests : List (String × DnsRequest)
  upstreamToHashMap : List (Nat × String)
deriving DecidableEq, Repr

def RequestManager.empty : RequestManager := ⟨[], []⟩

/-- The `do { … } while (this.upstreamToHashMap.has(upstreamQueryId))` loop of
`generateUniqueUpstreamId`.  `rng k` is the value of the `k`-th call to
`Math.floor(Math.random() * 65535)`; `fuel` bounds the number of iterations we
unfold (the theorems show the loop exits as soon as the stream supplies a
fresh value). -/
def genIdLoop (u : List (Nat × String)) (rng : Nat → Nat) : Nat → Nat → Option Nat
  | _, 0 => none
  | k, fuel + 1 =>
    let upstreamQueryId := rng k
    if mapHas upstreamQueryId u then genIdLoop u rng (k + 1) fuel
    else some upstreamQueryId

/-- `RequestManager.generateUniqueUpstreamId`.  The method only reads
`upstreamToHashMap`; the returned state is the receiver, unchanged. -/
def RequestManager.generateUniqueUpstreamId (m : RequestManager) (rng : Nat → Nat)
    (fuel : Nat) : Option Nat × RequestManager :=
  (genIdLoop m.upstreamToHashMap rng 0 fuel, m)

/-- `RequestManager.storeRequest`. -/
def storeRequest (m : RequestManager) (hash : String) (request : DnsRequest) :
    RequestManager :=
  { pendingRequests := mapSet hash request m.pendingRequests,
    upstreamToHashMap := mapSet request.upstreamQueryId hash m.upstreamToHashMap }

/-- `RequestManager.getRequestByUpstreamId`.  The source is
`hash ? this.pendingRequests.get(hash) || null : null`; the JavaScript
truthiness test makes an empty-string hash behave like a missing entry. -/
def getRequestByUpstreamId (m : RequestManager) (upstreamId : Nat) : Option DnsRequest :=
  match mapGet upstreamId m.upstreamToHashMap with
  | some hash => if hash = "" then none else mapGet hash m.pendingRequests
  | none => none

/-- `RequestManager.getRequestByHash`. -/
def getRequestByHash (m : RequestManager) (hash : String) : Option DnsRequest :=
  mapGet hash m.pendingRequests

/-- `RequestManager.removeRequest`. -/
def removeRequest (m : RequestManager) (hash : String) (upstreamId : Nat) :
    RequestManager :=
  { pendingRequests := mapDelete hash m.pendingRequests,
    upstreamToHashMap := mapDelete upstreamId m.upstreamToHashMap }

/-- The stale test `now - request.timestamp > timeoutMs` (JavaScript number
subtraction; with `now ≥ timestamp` the truncated subtraction agrees). -/
def isStale (now timeoutMs : Nat) (r : DnsRequest) : Bool :=
  decide (timeoutMs < now - r.timestamp)

/-- `RequestManager.cleanupStaleRequests`: iterate over `pendingRequests`,
deleting each stale entry from both maps and counting.  Deleting the entry
being visited from a JavaScript `Map` during iteration is equivalent to
filtering the snapshot; the deletions from `upstreamToHashMap` are a fold of
`delete` over the stale entries in iteration order. -/
def cleanupStaleRequests (m : RequestManager) (now : Nat) (timeoutMs : Nat := 30000) :
    RequestManager × Nat :=
  let stale := m.pendingRequests.filter (fun p => isStale now timeoutMs p.2)
  ({ pendingRequests := m.pendingRequests.filter (fun p => ! isStale now timeoutMs p.2),
     upstreamToHashMap :=
       stale.foldl (fun u p => mapDelete p.2.upstreamQueryId u) m.upstreamToHashMap },
   stale.length)

/-- `RequestManager.getStats`. -/
def getStats (m : RequestManager) : Nat × Nat :=
  (m.pendingRequests.length, m.upstreamToHashMap.length)

/-! ### `dns-forwarder.ts` -/

/-- Outcome of one call to `DnsForwarder.forwardUpstream`, up to and including
the synchronous `upstreamSocket.send`.  The RNG draw for the upstream ID and
the fingerprint (time- and randomness-dependent in the source) are passed in
as `upstreamQueryId` / `requestHash`. -/
inductive ForwardResult where
  /-- `serverIndex >= DNS_SERVERS.length`: log "All upstream DNS servers
  failed" and return without sending anything. -/
  | allFailed
  /-- `upstreamQuery.writeUInt16BE` threw (buffer shorter than 2 octets or
  identifier out of range). -/
  | writeRangeError
  /-- The pending entry was stored and the rewritten query handed to
  `upstreamSocket.send` for `server`. -/
  | sent (server : UpstreamServer) (upstreamQuery : Buf) (storedRequest : DnsRequest)
      (m' : RequestManager)
deriving DecidableEq, Repr

/-- `DnsForwarder.forwardUpstream` (one attempt, state-passing form). -/
def forwardUpstream (m : RequestManager) (queryBuffer : Buf) (clientInfo : DnsRequest)
    (serverIndex : Nat) (upstreamQueryId : Nat) (requestHash : String) : ForwardResult :=
  match DNS_SERVERS.get? serverIndex with
  | none => .allFailed
  | some server =>
    let domain := parseDomain queryBuffer
    let clientInfo' := { clientInfo with
      upstreamQueryId := upstreamQueryId
      domain := domain
      requestHash := requestHash }
    match writeUInt16BE upstreamQueryId queryBuffer with
    | none => .writeRangeError
    | some upstreamQuery =>
      .sent server upstreamQuery clientInfo' (storeRequest m requestHash clientInfo')

/-- Externally visible effects of `DnsForwarder.handleUpstreamResponse`, in
program order.  `cacheWrite` stands for the *completed* awaited
`redisClient.cacheResponse` round-trip. -/
inductive UpstreamEffect where
  | cacheWrite (domain : String) (response : Buf) (ttlSeconds : Nat)
  | sendClient (response : Buf) (ip : String) (port : Nat)
  | logOrphan (responseId : Nat)
  | closeSocket
deriving DecidableEq, Repr

def UpstreamEffect.isCacheWrite : UpstreamEffect → Bool
  | .cacheWrite _ _ _ => true
  | _ => false

def UpstreamEffect.isSendClient : UpstreamEffect → Bool
  | .sendClient _ _ _ => true
  | _ => false

/-- `DnsForwarder.handleUpstreamResponse`: returns the request-manager state
after the handler and the ordered list of its effects, or `none` when a
buffer accessor throws. -/
def handleUpstreamResponse (m : RequestManager) (response : Buf) :
    Option (RequestManager × List UpstreamEffect) :=
  match readUInt16BE response with
  | none => none
  | some responseQueryId =>
    match getRequestByUpstreamId m responseQueryId with
    | some originalRequest =>
      match writeUInt16BE originalRequest.queryId response with
      | none => none
      | some rewritten =>
        some (removeRequest m originalRequest.requestHash originalRequest.upstreamQueryId,
          [.cacheWrite originalRequest.domain response 300,
           .sendClient rewritten originalRequest.clientIP originalRequest.clientPort,
           .closeSocket])
    | none => some (m, [.logOrphan responseQueryId, .closeSocket])

/-! ### `server.ts` (the modular `DnsServer` class) -/

/-- Externally visible outcome of `DnsServer.handleDnsQuery` for one inbound
datagram. -/
inductive ServerAction where
  /-- An exception was thrown and caught (`"Error processing DNS query"`);
  no datagram is emitted. -/
  | dropped
  /-- Cache hit: the cached bytes, transaction ID rewritten, sent back. -/
  | cachedReply (reply : Buf) (ip : String) (port : Nat)
  /-- Cache miss: `forwarder.forwardUpstream(queryBuffer, clientInfo)` is
  invoked; `startIndex` is the `serverIndex` this call starts at. -/
  | forwarded (clientInfo : DnsRequest) (startIndex : Nat)
deriving DecidableEq, Repr

/-- `DnsServer.handleDnsQuery`.  `stickyIndex` is the forwarder's
`currentServerIndex` field at the time of the call; `cachedResponse` is the
result of the awaited `redisClient.getCachedResponse(domain)`.  The source
calls `this.forwarder.forwardUpstream(queryBuffer, clientInfo)` with no third
argument, so the attempt sequence starts at the parameter default `0`;
`stickyIndex` is never consulted. -/
def handleDnsQuery (stickyIndex : Nat) (queryBuffer : Buf) (address : String)
    (port : Nat) (now : Nat) (cachedResponse : Option Buf) : ServerAction :=
  match readUInt16BE queryBuffer with
  | none => .dropped
  | some queryId =>
    match cachedResponse with
    | some cached =>
      match writeUInt16BE queryId cached with
      | none => .dropped
      | some reply => .cachedReply reply address port
    | none =>
      .forwarded
        { clientIP := address
          clientPort := port
          timestamp := now
          queryId := queryId
          upstreamQueryId := 0
          domain := ""
          requestHash := "" } 0

/-! ### Request-table invariant (spec §3 invariants 1–2, §8 invariant 2) -/

theorem mapSet_of_mapGet_none {α β : Type} [DecidableEq α] {k : α} (v : β)
    {m : List (α × β)} (h : mapGet k m = none) : mapSet k v m = m ++ [(k, v)] := by
  induction m with
  | nil => rfl
  | cons p rest ih =>
    by_cases hp : p.1 = k
    · simp [mapGet, hp] at h
    · simp only [mapGet, if_neg hp] at h
      simp [mapSet, hp, ih h]

theorem entry_unique_of_keysNodup {α β : Type} [DecidableEq α] {m : List (α × β)}
    (hnd : (mapKeys m).Nodup) {p1 p2 : α × β} (h1 : p1 ∈ m) (h2 : p2 ∈ m)
    (hk : p1.1 = p2.1) : p1 = p2 := by
  have e1 : mapGet p1.1 m = some p1.2 := by
    obtain ⟨a, b⟩ := p1
    exact mapGet_eq_some_of_mem hnd h1
  have e2 : mapGet p2.1 m = some p2.2 := by
    obtain ⟨a, b⟩ := p2
    exact mapGet_eq_some_of_mem hnd h2
  rw [hk] at e1
  rw [e2] at e1
  rw [Option.some.injEq] at e1
  obtain ⟨a1, b1⟩ := p1
  obtain ⟨a2, b2⟩ := p2
  simp only at hk e1
  rw [Prod.mk.injEq]
  exact ⟨hk, e1.symm⟩

/-- The two maps of a `RequestManager` form a bimap: unique keys on both
sides, every pending entry's upstream ID points back at its fingerprint, and
every upstream entry's fingerprint resolves to a pending request carrying
that upstream ID. -/
def Inv (m : RequestManager) : Prop :=
  (mapKeys m.pendingRequests).Nodup ∧
  (mapKeys m.upstreamToHashMap).Nodup ∧
  (∀ p ∈ m.pendingRequests,
    mapGet p.2.upstreamQueryId m.upstreamToHashMap = some p.1) ∧
  (∀ q ∈ m.upstreamToHashMap,
    (mapGet q.2 m.pendingRequests).map DnsRequest.upstreamQueryId = some q.1)

theorem Inv_empty : Inv RequestManager.empty := by
  refine ⟨?_, ?_, ?_, ?_⟩ <;> simp [RequestManager.empty, mapKeys]

theorem Inv_store {m : RequestManager} {hash : String} {r : DnsRequest} (hInv : Inv m)
    (hh : mapGet hash m.pendingRequests = none)
    (hid : mapGet r.upstreamQueryId m.upstreamToHashMap = none) :
    Inv (storeRequest m hash r) := by
  obtain ⟨nd1, nd2, co1, co2⟩ := hInv
  refine ⟨mapKeys_mapSet_nodup _ _ nd1, mapKeys_mapSet_nodup _ _ nd2, ?_, ?_⟩
  · intro p hp
    rw [show (storeRequest m hash r).pendingRequests
          = m.pendingRequests ++ [(hash, r)] from mapSet_of_mapGet_none r hh] at hp
    rcases List.mem_append.mp hp with hp | hp
    · have hne : p.2.upstreamQueryId ≠ r.upstreamQueryId := by
        intro he
        have := co1 p hp
        rw [he, hid] at this
        exact Option.noConfusion this
      show mapGet p.2.upstreamQueryId (mapSet r.upstreamQueryId hash m.upstreamToHashMap)
            = some p.1
      rw [mapGet_mapSet_ne _ _ hne]
      exact co1 p hp
    · rcases List.mem_singleton.mp hp with hp
      subst hp
      exact mapGet_mapSet_self _ _ _
  · intro q hq
    rw [show (storeRequest m hash r).upstreamToHashMap
          = m.upstreamToHashMap ++ [(r.upstreamQueryId, hash)]
        from mapSet_of_mapGet_none hash hid] at hq
    rcases List.mem_append.mp hq with hq | hq
    · have hq2 := co2 q hq
      have hne : q.2 ≠ hash := by
        intro he
        rw [he, hh] at hq2
        exact Option.noConfusion hq2
      show (mapGet q.2 (mapSet hash r m.pendingRequests)).map
            DnsRequest.upstreamQueryId = some q.1
      rw [mapGet_mapSet_ne _ _ hne]
      exact hq2
    · rcases List.mem_singleton.mp hq with hq
      subst hq
      show (mapGet hash (mapSet hash r m.pendingRequests)).map
            DnsRequest.upstreamQueryId = some r.upstreamQueryId
      rw [mapGet_mapSet_self]
      rfl

theorem Inv_remove_matched {m : RequestManager} {hash : String} {r : DnsRequest}
    {upstreamId : Nat} (hInv : Inv m) (hm : mapGet hash m.pendingRequests = some r)
    (hid : r.upstreamQueryId = upstreamId) :
    Inv (removeRequest m hash upstreamId) := by
  obtain ⟨nd1, nd2, co1, co2⟩ := hInv
  have hmem : (hash, r) ∈ m.pendingRequests := mem_of_mapGet_eq_some hm
  have hback : mapGet r.upstreamQueryId m.upstreamToHashMap = some hash := co1 _ hmem
  refine ⟨mapKeys_mapDelete_nodup _ nd1, mapKeys_mapDelete_nodup _ nd2, ?_, ?_⟩
  · intro p hp
    have hp' := List.mem_filter.mp hp
    have hpmem : p ∈ m.pendingRequests := hp'.1
    have hpne : p.1 ≠ hash := of_decide_eq_true hp'.2
    have hne : p.2.upstreamQueryId ≠ upstreamId := by
      intro he
      have := co1 p hpmem
      rw [he, ← hid, hback] at this
      rw [Option.some.injEq] at this
      exact hpne this.symm
    show mapGet p.2.upstreamQueryId (mapDelete upstreamId m.upstreamToHashMap) = some p.1
    rw [mapGet_mapDelete_ne _ hne]
    exact co1 p hpmem
  · intro q hq
    have hq' := List.mem_filter.mp hq
    have hqmem : q ∈ m.upstreamToHashMap := hq'.1
    have hqne : q.1 ≠ upstreamId := of_decide_eq_true hq'.2
    have hne : q.2 ≠ hash := by
      intro he
      have := co2 q hqmem
      rw [he, hm] at this
      rw [Option.map_some', Option.some.injEq] at this
      exact hqne (this ▸ hid)
    show (mapGet q.2 (mapDelete hash m.pendingRequests)).map
          DnsRequest.upstreamQueryId = some q.1
    rw [mapGet_mapDelete_ne _ hne]
    exact co2 q hqmem

theorem removeRequest_absent {m : RequestManager} {hash : String} {upstreamId : Nat}
    (hm : mapGet hash m.pendingRequests = none)
    (hu : mapGet upstreamId m.upstreamToHashMap = none) :
    removeRequest m hash upstreamId = m := by
  obtain ⟨pend, up⟩ := m
  simp only [removeRequest] at *
  rw [mapDelete_of_mapGet_none hm, mapDelete_of_mapGet_none hu]

theorem foldl_mapDelete_sublist (l : List (String × DnsRequest))
    (u : List (Nat × String)) :
    (l.foldl (fun acc p => mapDelete p.2.upstreamQueryId acc) u).Sublist u := by
  induction l generalizing u with
  | nil => simp
  | cons p rest ih =>
    simp only [List.foldl_cons]
    exact (ih (mapDelete p.2.upstreamQueryId u)).trans (List.filter_sublist u)

theorem foldl_mapDelete_nodup {l : List (String × DnsRequest)}
    {u : List (Nat × String)} (h : (mapKeys u).Nodup) :
    (mapKeys (l.foldl (fun acc p => mapDelete p.2.upstreamQueryId acc) u)).Nodup :=
  (List.Sublist.map Prod.fst (foldl_mapDelete_sublist l u)).nodup h

theorem foldl_mapDelete_mapGet (l : List (String × DnsRequest))
    (u : List (Nat × String)) (k : Nat) :
    mapGet k (l.foldl (fun acc p => mapDelete p.2.upstreamQueryId acc) u)
      = if l.any (fun p => decide (p.2.upstreamQueryId = k)) then none
        else mapGet k u := by
  induction l generalizing u with
  | nil => simp
  | cons p rest ih =>
    simp only [List.foldl_cons, List.any_cons]
    rw [ih]
    by_cases hrest : rest.any (fun p => decide (p.2.upstreamQueryId = k)) = true
    · simp [hrest]
    · by_cases hp : p.2.upstreamQueryId = k
      · subst hp
        simp [hrest, mapGet_mapDelete_self]
      · simp [hrest, hp, mapGet_mapDelete_ne _ (fun hh => hp hh.symm)]

theorem Inv_cleanup {m : RequestManager} (hInv : Inv m) (now timeoutMs : Nat) :
    Inv (cleanupStaleRequests m now timeoutMs).1 := by
  obtain ⟨nd1, nd2, co1, co2⟩ := hInv
  set P : String × DnsRequest → Bool := fun p => isStale now timeoutMs p.2 with hP
  set staleL := m.pendingRequests.filter P with hstale
  have hm1 : (cleanupStaleRequests m now timeoutMs).1.pendingRequests
      = m.pendingRequests.filter (fun p => ! P p) := rfl
  have hm2 : (cleanupStaleRequests m now timeoutMs).1.upstreamToHashMap
      = staleL.foldl (fun acc p => mapDelete p.2.upstreamQueryId acc)
          m.upstreamToHashMap := rfl
  have nd1' : (mapKeys ((cleanupStaleRequests m now timeoutMs).1.pendingRequests)).Nodup := by
    rw [hm1]
    exact (List.Sublist.map Prod.fst (List.filter_sublist m.pendingRequests)).nodup nd1
  have hnoStale :
      ∀ p ∈ m.pendingRequests, (! P p) = true →
        staleL.any (fun p' => decide (p'.2.upstreamQueryId = p.2.upstreamQueryId)) = false := by
    intro p hp hkeep
    by_cases hany :
        (staleL.any fun p' => decide (p'.2.upstreamQueryId = p.2.upstreamQueryId)) = true
    · exfalso
      rcases List.any_eq_true.mp hany with ⟨p', hp', hpid⟩
      have hp'' := List.mem_filter.mp hp'
      have heq : p' = p :=
        entry_unique_of_keysNodup nd1 hp''.1 hp (by
          have h1 := co1 p' hp''.1
          have h2 := co1 p hp
          rw [of_decide_eq_true hpid, h2] at h1
          rw [Option.some.injEq] at h1
          exact h1.symm)
      rw [heq] at hp''
      rw [hp''.2] at hkeep
      simp at hkeep
    · exact Bool.eq_false_iff.mpr hany
  refine ⟨nd1', by rw [hm2]; exact foldl_mapDelete_nodup nd2, ?_, ?_⟩
  · intro p hp
    rw [hm1] at hp
    have hp' := List.mem_filter.mp hp
    rw [hm2, foldl_mapDelete_mapGet, hnoStale p hp'.1 hp'.2]
    simp only [Bool.false_eq_true, if_false]
    exact co1 p hp'.1
  · intro q hq
    obtain ⟨qid, qhash⟩ := q
    rw [hm2] at hq
    have hqu : (qid, qhash) ∈ m.upstreamToHashMap :=
      (foldl_mapDelete_sublist staleL m.upstreamToHashMap).subset hq
    have hq2 := co2 _ hqu
    simp only at hq2
    rcases hr0 : mapGet qhash m.pendingRequests with _ | r0
    · rw [hr0] at hq2
      exact Option.noConfusion hq2
    · rw [hr0, Option.map_some', Option.some.injEq] at hq2
      have hr0mem : (qhash, r0) ∈ m.pendingRequests := mem_of_mapGet_eq_some hr0
      -- the matching pending entry cannot be stale, else `(qid, qhash)` would
      -- have been deleted from the upstream map
      have hkeep : (! P (qhash, r0)) = true := by
        cases hPs : P (qhash, r0) with
        | false => simp [hPs]
        | true =>
          exfalso
          have hmemStale : (qhash, r0) ∈ staleL := List.mem_filter.mpr ⟨hr0mem, hPs⟩
          have hany : staleL.any (fun p' => decide (p'.2.upstreamQueryId = qid)) = true :=
            List.any_eq_true.mpr ⟨(qhash, r0), hmemStale, by simp [hq2]⟩
          have hnone : mapGet qid
              (staleL.foldl (fun acc p => mapDelete p.2.upstreamQueryId acc)
                m.upstreamToHashMap) = none := by
            rw [foldl_mapDelete_mapGet, hany]
            simp
          have hnd' : (mapKeys (staleL.foldl (fun acc p => mapDelete p.2.upstreamQueryId acc)
              m.upstreamToHashMap)).Nodup := foldl_mapDelete_nodup nd2
          have hsome := mapGet_eq_some_of_mem hnd' hq
          rw [hnone] at hsome
          exact Option.noConfusion hsome
      have hr0mem' : (qhash, r0) ∈ (cleanupStaleRequests m now timeoutMs).1.pendingRequests := by
        rw [hm1]
        exact List.mem_filter.mpr ⟨hr0mem, hkeep⟩
      have hsome := mapGet_eq_some_of_mem nd1' hr0mem'
      simp only
      rw [hsome, Option.map_some', Option.some.injEq]
      exact hq2

theorem Inv_stats_eq {m : RequestManager} (hInv : Inv m) :
    m.pendingRequests.length = m.upstreamToHashMap.length := by
  obtain ⟨nd1, nd2, co1, co2⟩ := hInv
  set f : String × DnsRequest → Nat × String := fun p => (p.2.upstreamQueryId, p.1) with hf
  have hinj : ∀ p1 ∈ m.pendingRequests, ∀ p2 ∈ m.pendingRequests, f p1 = f p2 → p1 = p2 := by
    intro p1 h1 p2 h2 hfe
    rw [hf, Prod.mk.injEq] at hfe
    exact entry_unique_of_keysNodup nd1 h1 h2 hfe.2
  have hndf : (m.pendingRequests.map f).Nodup :=
    (List.Nodup.of_map Prod.fst nd1).map_on hinj
  have hndu : m.upstreamToHashMap.Nodup := List.Nodup.of_map Prod.fst nd2
  have hmem : ∀ x, x ∈ m.pendingRequests.map f ↔ x ∈ m.upstreamToHashMap := by
    intro x
    constructor
    · intro hx
      rcases List.mem_map.mp hx with ⟨p, hp, hpx⟩
      rw [← hpx, hf]
      exact mem_of_mapGet_eq_some (co1 p hp)
    · intro hx
      have hx2 := co2 x hx
      rcases hr0 : mapGet x.2 m.pendingRequests with _ | r0
      · rw [hr0] at hx2
        exact Option.noConfusion hx2
      · rw [hr0, Option.map_some', Option.some.injEq] at hx2
        refine List.mem_map.mpr ⟨(x.2, r0), mem_of_mapGet_eq_some hr0, ?_⟩
        rw [hf]
        obtain ⟨a, b⟩ := x
        simp only at hx2 ⊢
        rw [hx2]
  have htof : (m.pendingRequests.map f).toFinset = m.upstreamToHashMap.toFinset := by
    apply Finset.ext
    intro x
    simp only [List.mem_toFinset]
    exact hmem x
  have hc1 : (m.pendingRequests.map f).toFinset.card = (m.pendingRequests.map f).length :=
    List.toFinset_card_of_nodup hndf
  have hc2 : m.upstreamToHashMap.toFinset.card = m.upstreamToHashMap.length :=
    List.toFinset_card_of_nodup hndu
  calc m.pendingRequests.length
      = (m.pendingRequests.map f).length := (List.length_map _ _).symm
    _ = (m.pendingRequests.map f).toFinset.card := hc1.symm
    _ = m.upstreamToHashMap.toFinset.card := by rw [htof]
    _ = m.upstreamToHashMap.length := hc2

theorem Inv_uids_nodup {m : RequestManager} (hInv : Inv m) :
    (m.pendingRequests.map (fun p => p.2.upstreamQueryId)).Nodup := by
  obtain ⟨nd1, nd2, co1, co2⟩ := hInv
  refine (List.Nodup.of_map Prod.fst nd1).map_on ?_
  intro p1 h1 p2 h2 he
  refine entry_unique_of_keysNodup nd1 h1 h2 ?_
  have e1 := co1 p1 h1
  have e2 := co1 p2 h2
  rw [he, e2] at e1
  rw [Option.some.injEq] at e1
  exact e1.symm

/-! ### Sequences of request-table operations -/

/-- The three mutating operations the `RequestManager` exposes. -/
inductive TableOp where
  | store (hash : String) (request : DnsRequest)
  | remove (hash : String) (upstreamId : Nat)
  | sweep (now : Nat) (timeoutMs : Nat)
deriving DecidableEq, Repr

def applyOp (m : RequestManager) : TableOp → RequestManager
  | .store h r => storeRequest m h r
  | .remove h id => removeRequest m h id
  | .sweep now t => (cleanupStaleRequests m now t).1

def applyOps (m : RequestManager) (ops : List TableOp) : RequestManager :=
  ops.foldl applyOp m

/-- How the running system invokes the table: stores use a fingerprint that is
not yet present and an upstream ID freshly allocated by
`generateUniqueUpstreamId` (hence absent from `upstreamToHashMap`); removes
pass the fingerprint/upstream-ID pair recorded in the entry being removed
(or a pair that is already gone, when the timeout raced the reply). -/
def safeOp (m : RequestManager) : TableOp → Bool
  | .store h r =>
      (mapGet h m.pendingRequests).isNone &&
      (mapGet r.upstreamQueryId m.upstreamToHashMap).isNone
  | .remove h id =>
      decide ((mapGet h m.pendingRequests).map DnsRequest.upstreamQueryId = some id) ||
      ((mapGet h m.pendingRequests).isNone && (mapGet id m.upstreamToHashMap).isNone)
  | .sweep _ _ => true

def safeOps : RequestManager → List TableOp → Bool
  | _, [] => true
  | m, op :: rest => safeOp m op && safeOps (applyOp m op) rest

theorem Inv_applyOp {m : RequestManager} {op : TableOp} (hInv : Inv m)
    (hsafe : safeOp m op = true) : Inv (applyOp m op) := by
  cases op with
  | store h r =>
    simp only [safeOp, Bool.and_eq_true, Option.isNone_iff_eq_none] at hsafe
    exact Inv_store hInv hsafe.1 hsafe.2
  | remove h id =>
    simp only [safeOp, Bool.or_eq_true, Bool.and_eq_true, Option.isNone_iff_eq_none,
      decide_eq_true_eq] at hsafe
    rcases hsafe with hsafe | hsafe
    · rcases hget : mapGet h m.pendingRequests with _ | r
      · rw [hget] at hsafe
        exact Option.noConfusion hsafe
      · rw [hget, Option.map_some', Option.some.injEq] at hsafe
        exact Inv_remove_matched hInv hget hsafe
    · show Inv (removeRequest m h id)
      rw [removeRequest_absent hsafe.1 hsafe.2]
      exact hInv
  | sweep now t => exact Inv_cleanup hInv now t

theorem Inv_applyOps {m : RequestManager} {ops : List TableOp} (hInv : Inv m)
    (hsafe : safeOps m ops = true) : Inv (applyOps m ops) := by
  induction ops generalizing m with
  | nil => exact hInv
  | cons op rest ih =>
    simp only [safeOps, Bool.and_eq_true] at hsafe
    exact ih (Inv_applyOp hInv hsafe.1) hsafe.2

/-! ### The upstream-ID allocation loop -/

theorem genIdLoop_eventually (u : List (Nat × String)) (rng : Nat → Nat) :
    ∀ fuel start, (∃ j, j < fuel ∧ mapHas (rng (start + j)) u = false) →
      ∃ v, genIdLoop u rng start fuel = some v ∧ mapHas v u = false := by
  intro fuel
  induction fuel with
  | zero =>
    intro start h
    rcases h with ⟨j, hj, _⟩
    omega
  | succ fuel ih =>
    intro start h
    by_cases hhas : mapHas (rng start) u = true
    · have h' : ∃ j, j < fuel ∧ mapHas (rng (start + 1 + j)) u = false := by
        rcases h with ⟨j, hj, hfresh⟩
        rcases j with _ | j'
        · rw [Nat.add_zero] at hfresh
          rw [hhas] at hfresh
          exact Bool.noConfusion hfresh
        · refine ⟨j', by omega, ?_⟩
          have harith : start + 1 + j' = start + (j' + 1) := by omega
          rw [harith]
          exact hfresh
      rcases ih (start + 1) h' with ⟨v, hv, hfresh⟩
      refine ⟨v, ?_, hfresh⟩
      simp only [genIdLoop, hhas, if_true]
      exact hv
    · have hfalse : mapHas (rng start) u = false := Bool.eq_false_iff.mpr hhas
      refine ⟨rng start, ?_, hfalse⟩
      simp [genIdLoop, hfalse]

theorem genIdLoop_result_is_drawn (u : List (Nat × String)) (rng : Nat → Nat) :
    ∀ fuel start v, genIdLoop u rng start fuel = some v → ∃ j, v = rng j := by
  intro fuel
  induction fuel with
  | zero =>
    intro start v h
    exact Option.noConfusion h
  | succ fuel ih =>
    intro start v h
    by_cases hhas : mapHas (rng start) u = true
    · simp only [genIdLoop, hhas, if_true] at h
      exact ih (start + 1) v h
    · have hfalse : mapHas (rng start) u = false := Bool.eq_false_iff.mpr hhas
      simp only [genIdLoop, hfalse] at h
      simp at h
      exact ⟨start, h.symm⟩

/-- `Math.floor(Math.random() * 65535)`, with the `Math.random()` draw `q`
(a real number with `0 ≤ q < 1`, modelled as a rational). -/
def mathRandom65535 (q : ℚ) : Nat := (Int.floor (q * 65535)).toNat

theorem mathRandom65535_lt (q : ℚ) (h1 : q < 1) : mathRandom65535 q < 65535 := by
  have hmul : q * 65535 < 65535 := by
    nlinarith
  have hfloor : Int.floor (q * 65535) < (65535 : ℤ) := by
    rw [Int.floor_lt]
    push_cast
    exact hmul
  unfold mathRandom65535
  omega

/-! ### Claim theorems -/

/-- C7: `storeRequest` inserts the `PendingRequest` into both maps in a single
atomic state transition (after the call, the fingerprint map yields the
request and the upstream-ID map yields the fingerprint), and it is total —
it never fails, so in particular any failure would require the fingerprint to
pre-exist (vacuously; on a duplicate fingerprint the source's `Map.set`
overwrites rather than failing). -/
theorem storeRequest_inserts_both (m : RequestManager) (hash : String)
    (request : DnsRequest) :
    getRequestByHash (storeRequest m hash request) hash = some request ∧
    mapGet request.upstreamQueryId (storeRequest m hash request).upstreamToHashMap
      = some hash := by
  constructor
  · show mapGet hash (mapSet hash request m.pendingRequests) = some request
    exact mapGet_mapSet_self _ _ _
  · show mapGet request.upstreamQueryId
        (mapSet request.upstreamQueryId hash m.upstreamToHashMap) = some hash
    exact mapGet_mapSet_self _ _ _

/-- C8: QNAME extraction terminates on *every* input buffer — including
buffers shorter than the 12-octet header and buffers truncated before the
root label — returning some string, and never performs an out-of-bounds byte
read (such a read is modelled as `none` inside `parseDomainLoop`, and the
result is always `some`). -/
theorem parseDomainFromQuery_total_no_overread (b : Buf) :
    ∃ s, parseDomainFromQuery b = some s := by
  rcases Option.isSome_iff_exists.mp (parseDomainLoop_isSome b 12 "") with ⟨s, hs⟩
  exact ⟨s.toLower, by simp [parseDomainFromQuery, hs]⟩

/-- C9: rewriting the transaction-ID field to `x` and then rewriting it back
to the buffer's original first-two-octet value restores the original buffer:
`rewrite_id(rewrite_id(b, x), b_orig_id) == b`. -/
theorem rewrite_rewrite_transaction_id (b b' : Buf) (x origId : Nat)
    (hbytes : ∀ c ∈ b, c < 256) (hx : x < 65536)
    (hread : readUInt16BE b = some origId)
    (hwrite : writeUInt16BE x b = some b') :
    writeUInt16BE origId b' = some b := by
  rcases b with _ | ⟨b0, rest1⟩
  · exact absurd hread (by simp [readUInt16BE])
  rcases rest1 with _ | ⟨b1, rest⟩
  · exact absurd hread (by simp [readUInt16BE])
  have hb0 : b0 < 256 := hbytes b0 (by simp)
  have hb1 : b1 < 256 := hbytes b1 (by simp)
  simp only [readUInt16BE, Option.some.injEq] at hread
  rw [writeUInt16BE_cons _ _ _ _ hx, Option.some.injEq] at hwrite
  subst hwrite
  have hlt : origId < 65536 := by omega
  rw [writeUInt16BE_cons _ _ _ _ hlt]
  have h1 : origId / 256 = b0 := by omega
  have h2 : origId % 256 = b1 := by omega
  rw [h1, h2]

/-- Witness for C9 at a concrete buffer: `b = [0x12, 0x34, 0x07]`,
`x = 0xBEEF`, original ID `0x1234 = 4660`. -/
theorem rewrite_rewrite_transaction_id_witness :
    writeUInt16BE 4660 [190, 239, 7] = some [18, 52, 7] :=
  rewrite_rewrite_transaction_id [18, 52, 7] [190, 239, 7] 48879 4660
    (by decide) (by decide) (by decide) (by decide)

/-- C5: an upstream reply whose transaction ID matches no request-table entry
(an orphan) is logged and dropped: no `sendClient` effect occurs and the
request manager is returned unchanged. -/
theorem orphan_reply_dropped (m : RequestManager) (response : Buf) (qid : Nat)
    (hread : readUInt16BE response = some qid)
    (horphan : getRequestByUpstreamId m qid = none) :
    handleUpstreamResponse m response
      = some (m, [UpstreamEffect.logOrphan qid, UpstreamEffect.closeSocket]) ∧
    ∀ e ∈ [UpstreamEffect.logOrphan qid, UpstreamEffect.closeSocket],
      e.isSendClient = false := by
  constructor
  · unfold handleUpstreamResponse
    rw [hread]
    simp [horphan]
  · intro e he
    rcases List.mem_cons.mp he with h | h
    · subst h; rfl
    · rcases List.mem_cons.mp h with h | h
      · subst h; rfl
      · simp at h

/-- Witness for C5: an orphan reply with ID 1 against the empty table. -/
theorem orphan_reply_dropped_witness :
    handleUpstreamResponse RequestManager.empty [0, 1]
      = some (RequestManager.empty,
          [UpstreamEffect.logOrphan 1, UpstreamEffect.closeSocket]) :=
  (orphan_reply_dropped RequestManager.empty [0, 1] 1 (by decide) (by decide)).1

/-- C6: as soon as the random stream supplies a value absent from
`upstreamToHashMap` — no matter how many preceding draws collide — the
allocation loop terminates with that many iterations of fuel, the returned
identifier is absent from the map, and the table is unchanged. -/
theorem generateUniqueUpstreamId_terminates_fresh (m : RequestManager)
    (rng : Nat → Nat) (k : Nat)
    (hfresh : mapHas (rng k) m.upstreamToHashMap = false) :
    (∃ v, (m.generateUniqueUpstreamId rng (k + 1)).1 = some v ∧
      mapHas v m.upstreamToHashMap = false) ∧
    (m.generateUniqueUpstreamId rng (k + 1)).2 = m := by
  constructor
  · have h0 : ∃ j, j < k + 1 ∧ mapHas (rng (0 + j)) m.upstreamToHashMap = false := by
      refine ⟨k, by omega, ?_⟩
      simpa using hfresh
    rcases genIdLoop_eventually m.upstreamToHashMap rng (k + 1) 0 h0 with ⟨v, hv, hf⟩
    exact ⟨v, hv, hf⟩
  · rfl

/-- Spec §8 scenario 6: table holds upstream IDs `{1, 2}`; the mocked RNG
yields `1, 2, 7`. -/
def mockTable : RequestManager := ⟨[], [(1, "h1"), (2, "h2")]⟩

def mockRng : Nat → Nat := fun n => List.getD [1, 2, 7] n 7

/-- Witness for C6: with colliding draws `1, 2` followed by the fresh `7`,
allocation with fuel 3 succeeds and leaves the table unchanged. -/
theorem generateUniqueUpstreamId_terminates_fresh_witness :
    mapHas (mockRng 2) mockTable.upstreamToHashMap = false ∧
    ((∃ v, (mockTable.generateUniqueUpstreamId mockRng 3).1 = some v ∧
        mapHas v mockTable.upstreamToHashMap = false) ∧
      (mockTable.generateUniqueUpstreamId mockRng 3).2 = mockTable) :=
  ⟨by decide, generateUniqueUpstreamId_terminates_fresh mockTable mockRng 2 (by decide)⟩

/-- C10: every candidate is `Math.floor(Math.random() * 65535)` with
`Math.random() < 1`, so any identifier the allocator returns is at most
65534; the value 65535 (`0xFFFF`) is never allocated. -/
theorem generateUniqueUpstreamId_le_65534 (m : RequestManager) (q : Nat → ℚ)
    (hq : ∀ j, q j < 1) (fuel v : Nat)
    (hv : (m.generateUniqueUpstreamId (fun j => mathRandom65535 (q j)) fuel).1
      = some v) :
    v ≤ 65534 := by
  rcases genIdLoop_result_is_drawn m.upstreamToHashMap _ fuel 0 v hv with ⟨j, hj⟩
  have hb := mathRandom65535_lt (q j) (hq j)
  omega

/-- Witness for C10: the draw `1/2` yields candidate 32767 on the empty
table. -/
theorem generateUniqueUpstreamId_le_65534_witness :
    ((1 : ℚ) / 2 < 1) ∧ (32767 : Nat) ≤ 65534 := by
  refine ⟨by norm_num, ?_⟩
  apply generateUniqueUpstreamId_le_65534 RequestManager.empty (fun _ => (1 : ℚ) / 2)
    (fun _ => by norm_num) 1 32767
  have hc : mathRandom65535 ((1 : ℚ) / 2) = 32767 := by
    have hf : (⌊(1 : ℚ) / 2 * 65535⌋ : ℤ) = 32767 := by
      rw [Int.floor_eq_iff]
      constructor <;> norm_num
    unfold mathRandom65535
    rw [hf]
    rfl
  show genIdLoop RequestManager.empty.upstreamToHashMap
      (fun j => mathRandom65535 ((1 : ℚ) / 2)) 0 1 = some 32767
  simp only [genIdLoop, RequestManager.empty, mapHas, mapGet, Option.isSome_none,
    Bool.false_eq_true, if_false, hc]

/-- Two requests sharing a fingerprint but carrying different upstream IDs. -/
def reqA : DnsRequest := ⟨"192.0.2.1", 40000, 0, 4660, 5, "a.example", "fp-a"⟩

def reqB : DnsRequest := ⟨"192.0.2.1", 40000, 0, 4660, 6, "a.example", "fp-a"⟩

/-- C4 counterexample: the claim quantifies over *any* sequence of store /
remove / sweep operations, but storing twice under the same fingerprint (with
distinct upstream IDs) leaves one entry in the fingerprint map and two in the
upstream-ID map, so the sizes differ. -/
theorem requestTable_sizes_counterexample :
    (getStats (applyOps RequestManager.empty
        [TableOp.store "fp-a" reqA, TableOp.store "fp-a" reqB])).1 ≠
    (getStats (applyOps RequestManager.empty
        [TableOp.store "fp-a" reqA, TableOp.store "fp-a" reqB])).2 := by decide

/-- C4 (amended): after any sequence of store / remove / sweep operations in
which every store uses a fingerprint and an upstream ID that are absent from
the table (as `generateRequestHash` / `generateUniqueUpstreamId` arrange) and
every remove passes either the fingerprint/upstream-ID pair recorded in the
table or a pair that is entirely absent, the two maps have equal size and the
stored `upstreamQueryId` values are pairwise distinct. -/
theorem requestTable_sizes_eq_and_ids_distinct (ops : List TableOp)
    (hsafe : safeOps RequestManager.empty ops = true) :
    (getStats (applyOps RequestManager.empty ops)).1
      = (getStats (applyOps RequestManager.empty ops)).2 ∧
    ((applyOps RequestManager.empty ops).pendingRequests.map
      (fun p => p.2.upstreamQueryId)).Nodup := by
  have hInv := Inv_applyOps Inv_empty hsafe
  exact ⟨Inv_stats_eq hInv, Inv_uids_nodup hInv⟩

/-- A second pending request with fresh fingerprint and upstream ID. -/
def reqW : DnsRequest := ⟨"198.51.100.7", 5002, 0, 257, 6, "b.example", "fp-b"⟩

/-- A well-formed operation sequence: two fresh stores, one matched remove,
one sweep that reaps the remaining stale entry. -/
def opsW : List TableOp :=
  [TableOp.store "fp-a" reqA, TableOp.store "fp-b" reqW,
   TableOp.remove "fp-a" 5, TableOp.sweep 40000 30000]

/-- Witness for the amended C4 on the concrete sequence `opsW`. -/
theorem requestTable_sizes_eq_and_ids_distinct_witness :
    safeOps RequestManager.empty opsW = true ∧
    ((getStats (applyOps RequestManager.empty opsW)).1
        = (getStats (applyOps RequestManager.empty opsW)).2 ∧
      ((applyOps RequestManager.empty opsW).pendingRequests.map
        (fun p => p.2.upstreamQueryId)).Nodup) :=
  ⟨by decide, requestTable_sizes_eq_and_ids_distinct opsW (by decide)⟩

/-- C1: every datagram the system sends back to a client carries the client's
own transaction ID.  (i) On a cache hit the reply's first two octets equal the
query's first two octets.  (ii) On a miss the stored client metadata records
exactly the query's transaction ID.  (iii) `forwardUpstream` stores that
metadata with the `queryId` field untouched.  (iv) A matched upstream reply is
sent to the recorded client with its ID field rewritten to the stored
`queryId`. -/
theorem client_reply_id_matches_query :
    (∀ (sticky : Nat) (q : Buf) (addr : String) (port now : Nat) (cached reply : Buf)
        (addr' : String) (port' : Nat),
      handleDnsQuery sticky q addr port now (some cached)
          = ServerAction.cachedReply reply addr' port' →
      readUInt16BE reply = readUInt16BE q) ∧
    (∀ (sticky : Nat) (q : Buf) (addr : String) (port now : Nat) (ci : DnsRequest)
        (idx : Nat),
      handleDnsQuery sticky q addr port now none = ServerAction.forwarded ci idx →
      readUInt16BE q = some ci.queryId) ∧
    (∀ (m : RequestManager) (q : Buf) (ci : DnsRequest) (idx uid : Nat) (hash : String)
        (sv : UpstreamServer) (uq : Buf) (stored : DnsRequest) (m' : RequestManager),
      forwardUpstream m q ci idx uid hash = ForwardResult.sent sv uq stored m' →
      stored.queryId = ci.queryId ∧ getRequestByHash m' hash = some stored) ∧
    (∀ (m : RequestManager) (resp : Buf) (m' : RequestManager)
        (tr : List UpstreamEffect) (rb : Buf) (ip : String) (port : Nat),
      handleUpstreamResponse m resp = some (m', tr) →
      UpstreamEffect.sendClient rb ip port ∈ tr →
      ∃ qid r, readUInt16BE resp = some qid ∧
        getRequestByUpstreamId m qid = some r ∧
        readUInt16BE rb = some r.queryId ∧ ip = r.clientIP ∧ port = r.clientPort) := by
  refine ⟨?_, ?_, ?_, ?_⟩
  · intro sticky q addr port now cached reply addr' port' h
    unfold handleDnsQuery at h
    rcases hq : readUInt16BE q with _ | qid
    · rw [hq] at h
      simp at h
    · rw [hq] at h
      simp only at h
      rcases hw : writeUInt16BE qid cached with _ | rep
      · rw [hw] at h
        simp at h
      · rw [hw] at h
        simp only [ServerAction.cachedReply.injEq] at h
        rw [← h.1]
        exact readUInt16BE_writeUInt16BE hw
  · intro sticky q addr port now ci idx h
    unfold handleDnsQuery at h
    rcases hq : readUInt16BE q with _ | qid
    · rw [hq] at h
      simp at h
    · rw [hq] at h
      simp only [ServerAction.forwarded.injEq] at h
      rw [← h.1]
  · intro m q ci idx uid hash sv uq stored m' h
    unfold forwardUpstream at h
    rcases hsv : DNS_SERVERS.get? idx with _ | server
    · rw [hsv] at h
      simp at h
    · rw [hsv] at h
      rcases hw : writeUInt16BE uid q with _ | uq0
      · simp only [hw] at h
        simp at h
      · simp only [hw] at h
        simp only [ForwardResult.sent.injEq] at h
        obtain ⟨_, _, hstored, hm'⟩ := h
        constructor
        · rw [← hstored]
        · rw [← hm', ← hstored]
          show mapGet hash (mapSet hash _ m.pendingRequests) = _
          rw [mapGet_mapSet_self]
  · intro m resp m' tr rb ip port h hmem
    unfold handleUpstreamResponse at h
    rcases hq : readUInt16BE resp with _ | qid
    · rw [hq] at h
      exact Option.noConfusion h
    · rw [hq] at h
      rcases hr : getRequestByUpstreamId m qid with _ | r
      · simp only [hr] at h
        rw [Option.some.injEq, Prod.mk.injEq] at h
        obtain ⟨_, htr⟩ := h
        rw [← htr] at hmem
        simp at hmem
      · simp only [hr] at h
        rcases hw : writeUInt16BE r.queryId resp with _ | rwr
        · rw [hw] at h
          exact Option.noConfusion h
        · rw [hw] at h
          rw [Option.some.injEq, Prod.mk.injEq] at h
          obtain ⟨_, htr⟩ := h
          rw [← htr] at hmem
          refine ⟨qid, r, rfl, hr, ?_⟩
          rcases List.mem_cons.mp hmem with hc | hc
          · exact absurd hc (by simp)
          rcases List.mem_cons.mp hc with hc | hc
          · rw [UpstreamEffect.sendClient.injEq] at hc
            obtain ⟨hrb, hip, hport⟩ := hc
            rw [hrb]
            exact ⟨readUInt16BE_writeUInt16BE hw, hip, hport⟩
          rcases List.mem_cons.mp hc with hc | hc
          · exact absurd hc (by simp)
          · simp at hc

/-- Witness for C1 at a concrete cache hit: query ID `0x1234` is written over
the cached bytes before they are returned. -/
theorem client_reply_id_matches_query_witness :
    handleDnsQuery 0 [18, 52] "203.0.113.5" 7777 0 (some [170, 170, 9])
        = ServerAction.cachedReply [18, 52, 9] "203.0.113.5" 7777 ∧
    readUInt16BE [18, 52, 9] = readUInt16BE ([18, 52] : Buf) := by
  refine ⟨by decide, ?_⟩
  exact client_reply_id_matches_query.1 0 [18, 52] "203.0.113.5" 7777 0
    [170, 170, 9] [18, 52, 9] "203.0.113.5" 7777 (by decide)

/-- C2: the modular server loop never consults the sticky index.  With the
forwarder's `currentServerIndex` equal to 1, a cache-miss query is still
handed to `forwardUpstream` with the parameter-default starting index 0 (the
source calls `forwardUpstream(queryBuffer, clientInfo)` with no index
argument), contradicting the specified start at the sticky index. -/
theorem handleDnsQuery_starts_at_zero_not_sticky :
    handleDnsQuery 1 [18, 52, 1, 0, 0, 1, 0, 0, 0, 0, 0, 0] "127.0.0.1" 44444 0 none
      = ServerAction.forwarded
          ⟨"127.0.0.1", 44444, 0, 4660, 0, "", ""⟩ 0 ∧
    (0 : Nat) ≠ 1 := ⟨by decide, by decide⟩

/-- The pending request of the C3 scenario: client `10.0.0.9:5353`, client ID
`0x5678`, upstream ID `0xAAAA`. -/
def reqC3 : DnsRequest := ⟨"10.0.0.9", 5353, 0, 22136, 43690, "example.com", "hashc3"⟩

def mgrC3 : RequestManager := ⟨[("hashc3", reqC3)], [(43690, "hashc3")]⟩

def respC3 : Buf := [170, 170, 1, 2]

/-- The effect trace `handleUpstreamResponse` produces for `respC3`. -/
def trC3 : List UpstreamEffect :=
  [UpstreamEffect.cacheWrite "example.com" respC3 300,
   UpstreamEffect.sendClient [86, 120, 1, 2] "10.0.0.9" 5353,
   UpstreamEffect.closeSocket]

/-- C3 counterexample: for a matched upstream reply the completed cache
round-trip occurs at trace position 0 and the client send at position 1, so
the send is *not* at-or-before the cache write: the reply is sent only after
the awaited `cacheResponse` finishes. -/
theorem send_before_cacheWrite_counterexample :
    handleUpstreamResponse mgrC3 respC3 = some (RequestManager.empty, trC3) ∧
    ¬ trC3.findIdx UpstreamEffect.isSendClient
        ≤ trC3.findIdx UpstreamEffect.isCacheWrite := ⟨by decide, by decide⟩

/-- C3 (amended): in `handleUpstreamResponse` the awaited cache write strictly
precedes the client send — every `cacheWrite` effect in the trace comes before
every `sendClient` effect, so a slow cache backend round-trip delays the
reply (cache errors are caught inside `cacheResponse`, so the reply is still
sent afterwards). -/
theorem cacheWrite_completes_before_send (m : RequestManager) (resp : Buf)
    (m' : RequestManager) (tr : List UpstreamEffect)
    (h : handleUpstreamResponse m resp = some (m', tr))
    (i j : Nat) (hi : i < tr.length) (hj : j < tr.length)
    (hci : (tr.get ⟨i, hi⟩).isCacheWrite = true)
    (hsj : (tr.get ⟨j, hj⟩).isSendClient = true) : i < j := by
  unfold handleUpstreamResponse at h
  rcases hq : readUInt16BE resp with _ | qid
  · rw [hq] at h
    exact Option.noConfusion h
  · rw [hq] at h
    rcases hr : getRequestByUpstreamId m qid with _ | r
    · simp only [hr] at h
      rw [Option.some.injEq, Prod.mk.injEq] at h
      obtain ⟨_, htr⟩ := h
      subst htr
      have hij : i = 0 ∨ i = 1 := by
        simp only [List.length_cons, List.length_nil] at hi
        omega
      rcases hij with hi0 | hi1
      · subst hi0
        simp [UpstreamEffect.isCacheWrite] at hci
      · subst hi1
        simp [UpstreamEffect.isCacheWrite] at hci
    · simp only [hr] at h
      rcases hw : writeUInt16BE r.queryId resp with _ | rwr
      · rw [hw] at h
        exact Option.noConfusion h
      · rw [hw] at h
        rw [Option.some.injEq, Prod.mk.injEq] at h
        obtain ⟨_, htr⟩ := h
        subst htr
        have hlen : i = 0 ∨ i = 1 ∨ i = 2 := by
          simp only [List.length_cons, List.length_nil] at hi
          omega
        have hlenj : j = 0 ∨ j = 1 ∨ j = 2 := by
          simp only [List.length_cons, List.length_nil] at hj
          omega
        have hj1 : j = 1 := by
          rcases hlenj with h0 | h1 | h2
          · subst h0
            simp [UpstreamEffect.isSendClient] at hsj
          · exact h1
          · subst h2
            simp [UpstreamEffect.isSendClient] at hsj
        have hi0 : i = 0 := by
          rcases hlen with h0 | h1 | h2
          · exact h0
          · subst h1
            simp [UpstreamEffect.isCacheWrite] at hci
          · subst h2
            simp [UpstreamEffect.isCacheWrite] at hci
        omega

/-- Witness for the amended C3 at the concrete scenario: the cache write (index
0) precedes the send (index 1). -/
theorem cacheWrite_completes_before_send_witness : (0 : Nat) < 1 :=
  cacheWrite_completes_before_send mgrC3 respC3 RequestManager.empty trC3
    (by decide) 0 1 (by decide) (by decide) (by decide) (by decide)
